import Mathlib

/-!
Shallow embedding of the WATT eviction policy of libCacheSim
(src/libCacheSim/cache/eviction/WATT.c) and proofs about it.

Modelling conventions:
* C `int64_t` virtual times are `Int`.
* The per-object ring buffer `accesses[8]` is a function `Fin 8 → Int` and
  `last_pos` a `Fin 8` (the source keeps it in 0..7: it is written only as
  `0` or as a value reduced `% 8`).
* IEEE doubles produced by the scoring loop are embedded as `WithTop ℚ`:
  every division the code performs has the shape `q / d` with `q > 0` a
  small constant and `d` an integer, so the result is the exact rational
  `q / d` when `d ≠ 0` and `+inf` (here `⊤`) when `d = 0`, matching IEEE
  semantics of `0.2 / 0.0`.  Rounding of rationals to doubles is not
  modelled.
* `hashtable_rand_obj` is outside the staged sources; functions that need
  samples take the list of drawn objects as an argument, and a
  spec-modelled deterministic sampler `sample_draws` is provided.
-/

/-- Per-object WATT metadata: the 8-slot ring of access virtual times and
the cursor of the most recently written slot (`cache_obj->WATT`). -/
structure WATTMeta where
  last_pos : Fin 8
  accesses : Fin 8 → Int
deriving DecidableEq

/-- The part of `cache_obj_t` the WATT policy reads: the object id and the
WATT metadata. -/
structure cache_obj where
  obj_id : Nat
  WATT : WATTMeta
deriving DecidableEq

/-- The fields of `cache_t` the WATT code reads and writes. -/
structure cache_t where
  n_req : Int
  n_obj : Nat
  to_evict_candidate : Option cache_obj
  to_evict_candidate_gen_vtime : Int
deriving DecidableEq

/-- IEEE double division `num / den` with a positive rational numerator and
an integer denominator: exact when `den ≠ 0`, `+inf` (`⊤`) when `den = 0`. -/
def wdiv (num : ℚ) (den : Int) : WithTop ℚ :=
  if den = 0 then ⊤ else (((num / (den : ℚ)) : ℚ) : WithTop ℚ)

/-- One iteration of the inner loop of `WATT_to_evict` (WATT.c lines
186-191): `new_value = 1.0*(i+1) / (curr_time - accesses[(last_pos+8-i)%8])`
and keep the larger of it and the running score. -/
def score_step (curr_time : Int) (m : WATTMeta) (s : WithTop ℚ) (i : Nat) : WithTop ℚ :=
  let new_value :=
    wdiv ((i : ℚ) + 1)
      (curr_time - m.accesses ⟨(m.last_pos.val + 8 - i) % 8, by omega⟩)
  if s < new_value then new_value else s

/-- The score `WATT_to_evict` computes for one sampled object (WATT.c lines
185-191): start from `0.2 / (curr_time - accesses[last_pos])` and run the
inner loop for `i = 1..7`. -/
def watt_score (curr_time : Int) (m : WATTMeta) : WithTop ℚ :=
  (List.range' 1 7).foldl (score_step curr_time m)
    (wdiv (0.2 : ℚ) (curr_time - m.accesses m.last_pos))

/-- The initial value of `worst_candidate_score` (WATT.c line 182: `1.0e16`). -/
def worst_init : WithTop ℚ := ((1.0e16 : ℚ) : WithTop ℚ)

/-- One iteration of the sampling loop of `WATT_to_evict` (WATT.c lines
183-196): keep the sampled object if its score is strictly below the
running worst score. -/
def select_step (curr_time : Int) (acc : Option cache_obj × WithTop ℚ)
    (sampled_obj : cache_obj) : Option cache_obj × WithTop ℚ :=
  if watt_score curr_time sampled_obj.WATT < acc.2 then
    (some sampled_obj, watt_score curr_time sampled_obj.WATT)
  else acc

/-- The candidate-selection loop of `WATT_to_evict` over the drawn samples,
returning the final `(best_candidate, worst_candidate_score)` pair. -/
def WATT_select (curr_time : Int) (samples : List cache_obj) :
    Option cache_obj × WithTop ℚ :=
  samples.foldl (select_step curr_time) (none, worst_init)

/-- `WATT_to_evict` (WATT.c lines 177-202): select the candidate among the
samples, cache it together with the tick it was computed at, and return it. -/
def WATT_to_evict (cache : cache_t) (samples : List cache_obj) :
    Option cache_obj × cache_t :=
  let best_candidate := (WATT_select cache.n_req samples).1
  (best_candidate,
    { cache with
      to_evict_candidate := best_candidate
      to_evict_candidate_gen_vtime := cache.n_req })

/-- The outcome of `WATT_evict`: the chosen victim, the cache state after
the candidate bookkeeping, and whether `DEBUG_ASSERT(cache->n_obj == 0)`
held (it is evaluated only when no victim was found). -/
structure evict_outcome where
  chosen : Option cache_obj
  state : cache_t
  debug_assert_ok : Bool
deriving DecidableEq

/-- `WATT_evict` (WATT.c lines 213-229): reuse the cached candidate when its
generation tick equals `cache->n_req`, otherwise recompute it via
`WATT_to_evict`; then invalidate the cached tick (set it to `-1`).  The
`DEBUG_ASSERT` on the no-victim path is recorded in `debug_assert_ok`;
`cache_evict_base` (the generic store mutation, outside the staged sources)
is not modelled. -/
def WATT_evict (cache : cache_t) (samples : List cache_obj) : evict_outcome :=
  let step1 :=
    if cache.to_evict_candidate_gen_vtime = cache.n_req then
      (cache.to_evict_candidate, cache)
    else
      WATT_to_evict cache samples
  { chosen := step1.1
    state := { step1.2 with to_evict_candidate_gen_vtime := -1 }
    debug_assert_ok :=
      match step1.1 with
      | none => cache.n_obj == 0
      | some _ => true }

/-- `WATT_insert` metadata initialisation (WATT.c lines 153-162):
`last_pos = 0`, `accesses[0] = curr_time`, the seven other slots pre-seeded
to `curr_time - 3000000`. -/
def WATT_insert_metadata (curr_time : Int) : WATTMeta :=
  { last_pos := 0
    accesses := fun j => if j.val = 0 then curr_time else curr_time - 3000000 }

/-- The touch of `WATT_find` on a hit with `update_cache` (WATT.c lines
133-135): advance `last_pos` by one mod 8 and write `curr_time` there. -/
def WATT_touch (m : WATTMeta) (curr_time : Int) : WATTMeta :=
  let next_pos : Fin 8 := ⟨(m.last_pos.val + 1) % 8, by omega⟩
  { last_pos := next_pos
    accesses := Function.update m.accesses next_pos curr_time }

/-- The ring of an object inserted at virtual time `t` and then touched at
the successive virtual times `ts`. -/
def insert_then_touches (t : Int) (ts : List Int) : WATTMeta :=
  ts.foldl (fun m u => WATT_touch m u) (WATT_insert_metadata t)

/-- `WATT_find` (WATT.c lines 126-139) over a pure store view
`objs : Nat → Option WATTMeta`.  `cache_find_base` (outside the staged
sources) is modelled from the spec as a pure lookup of the identity; the
update branch is the source's lines 130-136.  Returns the found (and
possibly touched) metadata together with the store after the call. -/
def WATT_find (curr_time : Int) (objs : Nat → Option WATTMeta) (obj_id : Nat)
    (update_cache : Bool) : Option WATTMeta × (Nat → Option WATTMeta) :=
  match objs obj_id, update_cache with
  | some m, true =>
      let m2 := WATT_touch m curr_time
      (some m2, Function.update objs obj_id (some m2))
  | r, _ => (r, objs)

/-- Modelled from the spec: `hashtable_rand_obj` (the hash index's
uniform-random draw, not under the staged sources).  The spec requires the
generator to be seedable and deterministic given the same seed and state;
each draw returns some live object of the population, and a draw from an
empty population returns nothing, so the sample list of an empty store is
empty. -/
def sample_draws (seed : Nat) (population : List cache_obj) (n_sample : Nat) :
    List cache_obj :=
  (List.range n_sample).filterMap
    (fun i => population.get? ((seed + 1103515245 * i) % population.length))

/-- The common construction parameters `WATT_init` consumes.  The struct
type itself is outside the staged sources; the hashpower sizing hint is
modelled as a mathematical integer. -/
structure common_cache_params_t where
  hashpower : Int
  consider_obj_metadata : Bool
deriving DecidableEq

/-- The configuration `WATT_init` (WATT.c lines 42-74) determines: the
hash-index sizing of the local parameter copy, the default sample count,
and the per-object metadata size.  The first component of the result is
the caller's parameter struct after the call (C passes it by value and the
code additionally mutates only a local copy, line 45). -/
def WATT_init (ccache_params : common_cache_params_t) :
    common_cache_params_t × (Int × Int × Nat) :=
  let ccache_params_local :=
    { ccache_params with hashpower := max 12 (ccache_params.hashpower - 8) }
  (ccache_params,
    (ccache_params_local.hashpower, 64,
      if ccache_params.consider_obj_metadata then 16 else 0))

/-- The weights of the spec's description of the score: index `i = 0` is
the age-1 weight `0.2 / (curr_time - accesses[last_pos])`, and index
`i = 1..7` is the age-`i+1` weight
`(i+1) / (curr_time - accesses[(last_pos + 8 - i) mod 8])`. -/
def spec_weight (curr_time : Int) (m : WATTMeta) (i : Nat) : WithTop ℚ :=
  if i = 0 then wdiv (0.2 : ℚ) (curr_time - m.accesses m.last_pos)
  else
    wdiv ((i : ℚ) + 1)
      (curr_time - m.accesses ⟨(m.last_pos.val + 8 - i) % 8, by omega⟩)

/-- The spec's description of an object's score: the maximum of the 8
weights. -/
def spec_score (curr_time : Int) (m : WATTMeta) : WithTop ℚ :=
  ((List.range' 1 7).map (spec_weight curr_time m)).foldl max
    (spec_weight curr_time m 0)

/-- The running comparison of the spec's selection: keep an earlier
candidate `b` over `o` only if its value is strictly lower. -/
def better (f : cache_obj → WithTop ℚ) (o : cache_obj) :
    Option cache_obj → cache_obj
  | none => o
  | some b => if f b < f o then b else o

/-- The spec's description of the selection: the sampled object with the
lowest score, ties resolved first-seen-wins (a strictly lower score is
needed to displace an earlier minimum). -/
def first_min_by (f : cache_obj → WithTop ℚ) : List cache_obj → Option cache_obj
  | [] => none
  | o :: rest => some (better f o (first_min_by f rest))

/-- An object whose every ring slot holds virtual time 5, sampled at
virtual time 5: every scored denominator is zero. -/
def all_now_obj : cache_obj := ⟨1, ⟨0, fun _ => 5⟩⟩

/-- A cache state at virtual time 5 holding one object. -/
def cex_cache : cache_t := ⟨5, 1, none, -1⟩

/-- An object whose every ring slot holds virtual time 0, sampled at
virtual time 10: every scored denominator is 10, the score is finite. -/
def far_obj : cache_obj := ⟨2, ⟨0, fun _ => 0⟩⟩

/-- A cache state at virtual time 10 holding one object. -/
def far_cache : cache_t := ⟨10, 1, none, -1⟩

/-- In a linear order the source's `if s < v then v else s` is `max s v`. -/
theorem ite_lt_eq_max (a b : WithTop ℚ) : (if a < b then b else a) = max a b := by
  rcases lt_or_ge a b with h | h
  · simp [h, max_eq_right h.le]
  · simp [not_lt.mpr h, max_eq_left h]

/-- The score the source loop computes is the maximum of the spec's 8
weights. -/
theorem watt_score_eq_spec_score (curr_time : Int) (m : WATTMeta) :
    watt_score curr_time m = spec_score curr_time m := by
  unfold watt_score spec_score
  rw [List.foldl_map]
  refine List.foldl_ext _ _ _ (fun s i hi => ?_)
  have h1 : 1 ≤ i ∧ i < 1 + 7 := List.mem_range'_1.mp hi
  have hne : i ≠ 0 := by omega
  simp only [score_step, spec_weight, if_neg hne]
  exact ite_lt_eq_max _ _

/-- Each division the scoring performs is `+inf` on a zero denominator and
otherwise a rational strictly below the initial worst score `1.0e16`. -/
theorem wdiv_top_or_lt (q : ℚ) (d : Int) (h0 : 0 ≤ q) (h8 : q ≤ 8) :
    wdiv q d = ⊤ ∨ wdiv q d < worst_init := by
  unfold wdiv
  split
  · exact Or.inl rfl
  · rename_i hd
    right
    have hd' : (d : ℚ) ≠ 0 := by exact_mod_cast hd
    have hle : q / (d : ℚ) ≤ 8 := by
      rcases hd'.lt_or_lt with hneg | hpos
      · have : q / (d : ℚ) ≤ 0 := div_nonpos_iff.mpr (Or.inl ⟨h0, hneg.le⟩)
        linarith
      · have h1 : (1 : ℚ) ≤ (d : ℚ) := by
          have : (1 : Int) ≤ d := by exact_mod_cast hpos
          exact_mod_cast this
        exact le_trans (div_le_self h0 h1) h8
    have : q / (d : ℚ) < (1.0e16 : ℚ) := by linarith [hle]
    exact WithTop.coe_lt_coe.mpr this

/-- A scoring step keeps the running score `+inf` or strictly below the
initial worst score. -/
theorem score_step_top_or_lt (curr_time : Int) (m : WATTMeta) {s : WithTop ℚ}
    (hs : s = ⊤ ∨ s < worst_init) {i : Nat} (h1 : 1 ≤ i) (h7 : i ≤ 7) :
    score_step curr_time m s i = ⊤ ∨ score_step curr_time m s i < worst_init := by
  have hv := wdiv_top_or_lt ((i : ℚ) + 1)
    (curr_time - m.accesses ⟨(m.last_pos.val + 8 - i) % 8, by omega⟩)
    (by positivity)
    (by
      have : (i : ℚ) ≤ 7 := by exact_mod_cast h7
      linarith)
  simp only [score_step]
  split
  · exact hv
  · exact hs

/-- An object's score is `+inf` or strictly below the initial worst score;
in particular a finite score can never reach `1.0e16`. -/
theorem watt_score_top_or_lt (curr_time : Int) (m : WATTMeta) :
    watt_score curr_time m = ⊤ ∨ watt_score curr_time m < worst_init := by
  unfold watt_score
  have hz := wdiv_top_or_lt (0.2 : ℚ) (curr_time - m.accesses m.last_pos)
    (by norm_num) (by norm_num)
  have main : ∀ (l : List Nat), (∀ i ∈ l, 1 ≤ i ∧ i ≤ 7) →
      ∀ s : WithTop ℚ, (s = ⊤ ∨ s < worst_init) →
      (l.foldl (score_step curr_time m) s = ⊤ ∨
        l.foldl (score_step curr_time m) s < worst_init) := by
    intro l
    induction l with
    | nil => exact fun _ s hs => hs
    | cons a t ih =>
      intro hmem s hs
      rw [List.foldl_cons]
      exact ih (fun i hi => hmem i (List.mem_cons_of_mem a hi)) _
        (score_step_top_or_lt curr_time m hs (hmem a (List.mem_cons_self a t)).1
          (hmem a (List.mem_cons_self a t)).2)
  exact main _ (by decide) _ hz

/-- A finite score is strictly below the initial worst score. -/
theorem watt_score_lt_init {curr_time : Int} {m : WATTMeta}
    (h : watt_score curr_time m ≠ ⊤) : watt_score curr_time m < worst_init :=
  (watt_score_top_or_lt curr_time m).resolve_left h

/-- The running score never decreases along the inner loop. -/
theorem le_score_step (curr_time : Int) (m : WATTMeta) (s : WithTop ℚ) (i : Nat) :
    s ≤ score_step curr_time m s i := by
  simp only [score_step]
  split
  · exact le_of_lt (by assumption)
  · exact le_refl s

/-- The inner loop's result is at least its starting value. -/
theorem le_foldl_score (curr_time : Int) (m : WATTMeta) :
    ∀ (l : List Nat) (s : WithTop ℚ), s ≤ l.foldl (score_step curr_time m) s := by
  intro l
  induction l with
  | nil => exact fun s => le_refl s
  | cons a t ih =>
    intro s
    rw [List.foldl_cons]
    exact le_trans (le_score_step curr_time m s a) (ih _)

/-- Every weight the inner loop examines bounds its result from below. -/
theorem atom_le_foldl_score (curr_time : Int) (m : WATTMeta) :
    ∀ (l : List Nat) (s : WithTop ℚ) (i : Nat), i ∈ l →
      wdiv ((i : ℚ) + 1)
          (curr_time - m.accesses ⟨(m.last_pos.val + 8 - i) % 8, by omega⟩) ≤
        l.foldl (score_step curr_time m) s := by
  intro l
  induction l with
  | nil => intro s i hi; exact absurd hi (List.not_mem_nil i)
  | cons a t ih =>
    intro s i hi
    rw [List.foldl_cons]
    rcases List.mem_cons.mp hi with rfl | hit
    · refine le_trans ?_ (le_foldl_score curr_time m t _)
      simp only [score_step]
      split
      · exact le_refl _
      · exact le_of_not_lt (by assumption)
    · exact ih _ i hit

/-- C3: `WATT_evict` reuses the cached candidate exactly when the stored
generation tick equals the current `n_req` (in which case the samples are
never consulted), recomputes it via `WATT_to_evict` otherwise, and in
either case leaves the cached tick invalidated to the sentinel `-1`. -/
theorem watt_evict_reuse_and_invalidate (cache : cache_t) (samples : List cache_obj) :
    (cache.to_evict_candidate_gen_vtime = cache.n_req →
      (WATT_evict cache samples).chosen = cache.to_evict_candidate ∧
      ∀ samples2, WATT_evict cache samples2 = WATT_evict cache samples) ∧
    (cache.to_evict_candidate_gen_vtime ≠ cache.n_req →
      (WATT_evict cache samples).chosen = (WATT_to_evict cache samples).1) ∧
    (WATT_evict cache samples).state.to_evict_candidate_gen_vtime = -1 := by
  refine ⟨fun h => ⟨?_, fun samples2 => ?_⟩, fun h => ?_, ?_⟩
  · simp [WATT_evict, h]
  · simp [WATT_evict, h]
  · simp [WATT_evict, h]
  · by_cases h : cache.to_evict_candidate_gen_vtime = cache.n_req <;>
      simp [WATT_evict, h]

/-- C4: on an empty store the sampler draws nothing, and `WATT_to_evict`
returns no candidate as an ordinary `none` result. -/
theorem watt_to_evict_empty_store (cache : cache_t) (seed n_sample : Nat) :
    (WATT_to_evict cache (sample_draws seed [] n_sample)).1 = none := by
  have h : sample_draws seed [] n_sample = [] := by
    simp [sample_draws, List.filterMap_eq_nil_iff]
  simp [WATT_to_evict, h, WATT_select]

/-- C5: the `DEBUG_ASSERT(cache->n_obj == 0)` of `WATT_evict` fails exactly
when no eviction candidate was found while the object count is positive;
a no-candidate outcome with `n_obj = 0` passes the assertion. -/
theorem watt_evict_assert_no_candidate (cache : cache_t) (samples : List cache_obj) :
    (WATT_evict cache samples).debug_assert_ok = false ↔
      (WATT_evict cache samples).chosen = none ∧ cache.n_obj ≠ 0 := by
  unfold WATT_evict
  rcases h : (if cache.to_evict_candidate_gen_vtime = cache.n_req then
      (cache.to_evict_candidate, cache)
    else WATT_to_evict cache samples).1 with _ | o <;>
    simp [h, Nat.beq_eq_true_eq]

/-- C7: with the spec-modelled deterministic sampler, two calls of
`WATT_to_evict` with the same seed, population and no intervening mutation
return the same candidate (the first call's bookkeeping writes do not
change `n_req`). -/
theorem watt_to_evict_deterministic (cache : cache_t) (seed : Nat)
    (population : List cache_obj) (n_sample : Nat) :
    (WATT_to_evict (WATT_to_evict cache (sample_draws seed population n_sample)).2
        (sample_draws seed population n_sample)).1 =
      (WATT_to_evict cache (sample_draws seed population n_sample)).1 := by
  simp [WATT_to_evict]

/-- C10: `WATT_init` sizes the hash index of its local parameter copy to
`max 12 (hashpower - 8)` whatever the requested hashpower, and returns the
caller's parameter struct unchanged. -/
theorem watt_init_hashpower (ccache_params : common_cache_params_t) :
    (WATT_init ccache_params).2.1 = max 12 (ccache_params.hashpower - 8) ∧
    (WATT_init ccache_params).1 = ccache_params := by
  exact ⟨rfl, rfl⟩

/-- `first_min_by` never returns nothing on a nonempty list. -/
theorem first_min_by_cons_eq (f : cache_obj → WithTop ℚ) (o : cache_obj)
    (rest : List cache_obj) :
    first_min_by f (o :: rest) = some (better f o (first_min_by f rest)) := by
  rw [first_min_by]

/-- The element `first_min_by` returns has the least value on the list. -/
theorem first_min_by_le (f : cache_obj → WithTop ℚ) :
    ∀ (l : List cache_obj) (c : cache_obj), first_min_by f l = some c →
      ∀ o ∈ l, f c ≤ f o := by
  intro l
  induction l with
  | nil => intro c hc; exact absurd hc (by simp [first_min_by])
  | cons a t ih =>
    intro c hc o ho
    rw [first_min_by_cons_eq, Option.some.injEq] at hc
    rcases hr : first_min_by f t with _ | b <;> rw [hr] at hc
    · have ht : t = [] := by
        cases t with
        | nil => rfl
        | cons x xs => rw [first_min_by_cons_eq] at hr; exact absurd hr (by simp)
      subst ht
      simp only [better] at hc
      cases hc
      rcases List.mem_cons.mp ho with rfl | h0
      · exact le_refl _
      · exact absurd h0 (List.not_mem_nil o)
    · simp only [better] at hc
      by_cases hba : f b < f a
      · rw [if_pos hba] at hc
        cases hc
        rcases List.mem_cons.mp ho with rfl | h0
        · exact hba.le
        · exact ih _ hr o h0
      · rw [if_neg hba] at hc
        cases hc
        rcases List.mem_cons.mp ho with rfl | h0
        · exact le_refl _
        · exact le_trans (le_of_not_lt hba) (ih b hr o h0)

/-- Prepending a strictly worse head does not change the first minimum. -/
theorem first_min_by_cons_of_lt {f : cache_obj → WithTop ℚ} {b o : cache_obj}
    {rest : List cache_obj} (h : f o < f b) :
    first_min_by f (b :: o :: rest) = first_min_by f (o :: rest) := by
  have hc : f (better f o (first_min_by f rest)) ≤ f o :=
    first_min_by_le f (o :: rest) _ (first_min_by_cons_eq f o rest) o
      (List.mem_cons_self o rest)
  rw [first_min_by_cons_eq f b, first_min_by_cons_eq f o, better,
    if_pos (lt_of_le_of_lt hc h)]

/-- Dropping a later element that is no better than the head does not
change the first minimum. -/
theorem first_min_by_cons_of_ge {f : cache_obj → WithTop ℚ} {b o : cache_obj}
    {rest : List cache_obj} (h : ¬ f o < f b) :
    first_min_by f (b :: o :: rest) = first_min_by f (b :: rest) := by
  rw [first_min_by_cons_eq f b (o :: rest), first_min_by_cons_eq f o rest,
    first_min_by_cons_eq f b rest]
  rcases hr : first_min_by f rest with _ | c
  · simp only [better, if_neg h]
  · simp only [better]
    by_cases hco : f c < f o
    · rw [if_pos hco]
    · rw [if_neg hco]
      have hcb : ¬ f c < f b := fun hlt =>
        h (lt_of_le_of_lt (le_of_not_lt hco) hlt)
      rw [if_neg h, if_neg hcb]

/-- Running the selection loop seeded with an already-selected object `b`
and its score yields the first minimum of `b` followed by the samples. -/
theorem select_from_some (curr_time : Int) :
    ∀ (samples : List cache_obj) (b : cache_obj),
      (samples.foldl (select_step curr_time)
          (some b, watt_score curr_time b.WATT)).1 =
        first_min_by (fun o => watt_score curr_time o.WATT) (b :: samples) := by
  intro samples
  induction samples with
  | nil => intro b; simp [first_min_by, better]
  | cons o rest ih =>
    intro b
    rw [List.foldl_cons]
    by_cases h : watt_score curr_time o.WATT < watt_score curr_time b.WATT
    · rw [show select_step curr_time (some b, watt_score curr_time b.WATT) o =
          (some o, watt_score curr_time o.WATT) by simp [select_step, h]]
      rw [ih o, first_min_by_cons_of_lt h]
    · rw [show select_step curr_time (some b, watt_score curr_time b.WATT) o =
          (some b, watt_score curr_time b.WATT) by simp [select_step, h]]
      rw [ih b, first_min_by_cons_of_ge h]

/-- Dropping a head whose value is `+inf` does not change the first
minimum when some later element has a finite value. -/
theorem first_min_by_cons_top {f : cache_obj → WithTop ℚ} {o : cache_obj}
    {rest : List cache_obj} (ho : f o = ⊤) (h : ∃ w ∈ rest, f w ≠ ⊤) :
    first_min_by f (o :: rest) = first_min_by f rest := by
  cases rest with
  | nil =>
    obtain ⟨w, hw, _⟩ := h
    exact absurd hw (List.not_mem_nil w)
  | cons x xs =>
    obtain ⟨w, hw, hwt⟩ := h
    have hc : f (better f x (first_min_by f xs)) ≤ f w :=
      first_min_by_le f (x :: xs) _ (first_min_by_cons_eq f x xs) w hw
    have hlt : f (better f x (first_min_by f xs)) < f o := by
      rw [ho]
      exact lt_top_iff_ne_top.mpr (fun ht => hwt (top_le_iff.mp (ht ▸ hc)))
    rw [first_min_by_cons_eq f o (x :: xs), first_min_by_cons_eq f x xs,
      better, if_pos hlt]

/-- The sampling loop from the initial `(NULL, 1.0e16)` accumulator returns
the first minimum of the samples as soon as one sample has a finite score. -/
theorem watt_select_first_min (curr_time : Int) (samples : List cache_obj)
    (h : ∃ o ∈ samples, watt_score curr_time o.WATT ≠ ⊤) :
    (WATT_select curr_time samples).1 =
      first_min_by (fun o => watt_score curr_time o.WATT) samples := by
  unfold WATT_select
  induction samples with
  | nil => simp at h
  | cons o rest ih =>
    rw [List.foldl_cons]
    by_cases ho : watt_score curr_time o.WATT = ⊤
    · rw [show select_step curr_time (none, worst_init) o = (none, worst_init) by
        simp [select_step, ho, not_top_lt]]
      obtain ⟨w, hw, hwt⟩ := h
      rcases List.mem_cons.mp hw with rfl | hwrest
      · exact absurd ho hwt
      · rw [ih ⟨w, hwrest, hwt⟩,
          @first_min_by_cons_top (fun o => watt_score curr_time o.WATT) o rest
            ho ⟨w, hwrest, hwt⟩]
    · rw [show select_step curr_time (none, worst_init) o =
          (some o, watt_score curr_time o.WATT) by
        simp [select_step, watt_score_lt_init ho]]
      exact select_from_some curr_time rest o

/-- If every sample scores `+inf`, the sampling loop never displaces the
initial `(NULL, 1.0e16)` accumulator. -/
theorem watt_select_all_top (curr_time : Int) (samples : List cache_obj)
    (h : ∀ o ∈ samples, watt_score curr_time o.WATT = ⊤) :
    WATT_select curr_time samples = (none, worst_init) := by
  unfold WATT_select
  induction samples with
  | nil => rfl
  | cons o rest ih =>
    rw [List.foldl_cons,
      show select_step curr_time (none, worst_init) o = (none, worst_init) by
        simp [select_step, h o (List.mem_cons_self o rest), not_top_lt]]
    exact ih (fun o' ho' => h o' (List.mem_cons_of_mem o ho'))

/-- Accumulator invariant of the sampling loop: the result is the starting
accumulator, or some sample together with its score, strictly below the
starting worst score. -/
theorem watt_select_inv (curr_time : Int) :
    ∀ (samples : List cache_obj) (b : Option cache_obj) (w : WithTop ℚ),
      samples.foldl (select_step curr_time) (b, w) = (b, w) ∨
      ∃ o ∈ samples,
        samples.foldl (select_step curr_time) (b, w) =
          (some o, watt_score curr_time o.WATT) ∧
        watt_score curr_time o.WATT < w := by
  intro samples
  induction samples with
  | nil => exact fun b w => Or.inl rfl
  | cons a t ih =>
    intro b w
    rw [List.foldl_cons]
    by_cases h : watt_score curr_time a.WATT < w
    · rw [show select_step curr_time (b, w) a =
          (some a, watt_score curr_time a.WATT) by simp [select_step, h]]
      rcases ih (some a) (watt_score curr_time a.WATT) with h1 | ⟨o, ho, h2, h3⟩
      · exact Or.inr ⟨a, List.mem_cons_self a t, h1, h⟩
      · exact Or.inr ⟨o, List.mem_cons_of_mem a ho, h2, lt_trans h3 h⟩
    · rw [show select_step curr_time (b, w) a = (b, w) by simp [select_step, h]]
      rcases ih b w with h1 | ⟨o, ho, h2, h3⟩
      · exact Or.inl h1
      · exact Or.inr ⟨o, List.mem_cons_of_mem a ho, h2, h3⟩

/-- A selected candidate always has a finite score: an object whose score
is `+inf` is never returned by the sampling loop. -/
theorem watt_select_some_score {curr_time : Int} {samples : List cache_obj}
    {o : cache_obj} (h : (WATT_select curr_time samples).1 = some o) :
    watt_score curr_time o.WATT ≠ ⊤ := by
  unfold WATT_select at h
  rcases watt_select_inv curr_time samples none worst_init with h1 | ⟨o', _, h2, h3⟩
  · rw [h1] at h
    exact absurd h (by simp)
  · rw [h2] at h
    simp only [Option.some.injEq] at h
    subst h
    intro ht
    rw [ht] at h3
    exact not_top_lt h3

/-- C1 (amended): every sampled object's score is the maximum over the 8
ages of the spec's weights; the returned candidate is the sampled object
with the lowest score, ties first-seen-wins, provided some sampled object
has a finite score; when every sampled object's score is `+inf` (a zero
denominator in its ring), no sample beats the initial `1.0e16` threshold
and `WATT_to_evict` returns no candidate. -/
theorem watt_to_evict_first_min (cache : cache_t) (samples : List cache_obj) :
    (∀ m : WATTMeta, watt_score cache.n_req m = spec_score cache.n_req m) ∧
    ((∃ o ∈ samples, watt_score cache.n_req o.WATT ≠ ⊤) →
      (WATT_to_evict cache samples).1 =
        first_min_by (fun o => watt_score cache.n_req o.WATT) samples) ∧
    ((∀ o ∈ samples, watt_score cache.n_req o.WATT = ⊤) →
      (WATT_to_evict cache samples).1 = none) := by
  refine ⟨fun m => watt_score_eq_spec_score _ _, fun h => ?_, fun h => ?_⟩
  · show (WATT_select cache.n_req samples).1 = _
    exact watt_select_first_min _ _ h
  · show (WATT_select cache.n_req samples).1 = none
    rw [watt_select_all_top _ _ h]

/-- C1 counterexample: at virtual time 5, a single sampled object whose
ring holds only the value 5 scores `+inf`; the claim's first-seen-wins
minimum is that object, but `WATT_to_evict` returns no candidate. -/
theorem watt_to_evict_first_min_cex :
    (WATT_to_evict cex_cache [all_now_obj]).1 = none ∧
    first_min_by (fun o => watt_score cex_cache.n_req o.WATT) [all_now_obj] =
      some all_now_obj := by
  constructor
  · decide
  · decide

/-- C1 witness: a finite-score sample at a concrete input, where the
selection does return the first minimum. -/
theorem watt_to_evict_first_min_witness :
    (∃ o ∈ [far_obj], watt_score far_cache.n_req o.WATT ≠ ⊤) ∧
    (WATT_to_evict far_cache [far_obj]).1 =
      first_min_by (fun o => watt_score far_cache.n_req o.WATT) [far_obj] := by
  have hx : ∃ o ∈ [far_obj], watt_score far_cache.n_req o.WATT ≠ ⊤ := by
    refine ⟨far_obj, List.mem_cons_self _ _, ?_⟩
    norm_num [far_cache, far_obj, watt_score, score_step, wdiv, List.range']
  exact ⟨hx, (watt_to_evict_first_min far_cache [far_obj]).2.1 hx⟩

/-- C6: an object with a ring slot equal to the current virtual time (zero
denominator) deterministically scores `+inf` and is never returned as the
eviction candidate of that tick. -/
theorem watt_score_zero_denominator (curr_time : Int) (m : WATTMeta)
    (h : ∃ j : Fin 8, m.accesses j = curr_time) :
    watt_score curr_time m = ⊤ ∧
    ∀ (cache : cache_t) (samples : List cache_obj) (o : cache_obj),
      cache.n_req = curr_time → o.WATT = m →
      (WATT_to_evict cache samples).1 ≠ some o := by
  obtain ⟨j, hj⟩ := h
  have htop : watt_score curr_time m = ⊤ := by
    by_cases hjl : j = m.last_pos
    · have hz : wdiv (0.2 : ℚ) (curr_time - m.accesses m.last_pos) = ⊤ := by
        rw [← hjl, hj]
        simp [wdiv]
      have hle := le_foldl_score curr_time m (List.range' 1 7)
        (wdiv (0.2 : ℚ) (curr_time - m.accesses m.last_pos))
      rw [hz] at hle
      rw [watt_score, hz]
      exact top_le_iff.mp hle
    · have hjv : j.val ≠ m.last_pos.val := fun hv => hjl (Fin.ext hv)
      have hj8 : j.val < 8 := j.isLt
      have hl8 : m.last_pos.val < 8 := m.last_pos.isLt
      set i := (m.last_pos.val + 8 - j.val) % 8 with hi
      have hi17 : 1 ≤ i ∧ i ≤ 7 := by omega
      have hmem : i ∈ List.range' 1 7 := List.mem_range'_1.mpr ⟨hi17.1, by omega⟩
      have hidx : (m.last_pos.val + 8 - i) % 8 = j.val := by omega
      have hatom := atom_le_foldl_score curr_time m (List.range' 1 7)
        (wdiv (0.2 : ℚ) (curr_time - m.accesses m.last_pos)) i hmem
      rw [show (⟨(m.last_pos.val + 8 - i) % 8, by omega⟩ : Fin 8) = j from
          Fin.ext hidx,
        hj, sub_self,
        show wdiv ((i : ℚ) + 1) 0 = ⊤ from by simp [wdiv]] at hatom
      rw [watt_score]
      exact top_le_iff.mp hatom
  refine ⟨htop, fun cache samples o hcache ho hsel => ?_⟩
  have hsel' : (WATT_select cache.n_req samples).1 = some o := hsel
  exact watt_select_some_score hsel' (by rw [ho, hcache, htop])

/-- C6 witness: the zero-denominator hypothesis discharged at a concrete
ring (every slot 7, current virtual time 7). -/
theorem watt_score_zero_denominator_witness :
    watt_score 7 ⟨0, fun _ => 7⟩ = ⊤ ∧
    ∀ (cache : cache_t) (samples : List cache_obj) (o : cache_obj),
      cache.n_req = 7 → o.WATT = ⟨0, fun _ => 7⟩ →
      (WATT_to_evict cache samples).1 ≠ some o :=
  watt_score_zero_denominator 7 ⟨0, fun _ => 7⟩ ⟨0, rfl⟩

/-- The touch list folds one step at a time from the right. -/
theorem insert_then_touches_append (t : Int) (ts : List Int) (u : Int) :
    insert_then_touches t (ts ++ [u]) =
      WATT_touch (insert_then_touches t ts) u := by
  simp [insert_then_touches, List.foldl_append]

/-- C2: after `WATT_insert` at virtual time `t` and `k` touches at the
successive virtual times `ts`, the cursor is `k mod 8`, slot
`(k - j) mod 8` holds the `(k - j)`-th access time for every
`j ≤ min k 7` (the most recent `min (k+1) 8` accesses in rotated order),
and every slot beyond the `k`-th still holds the pre-seed `t - 3000000`. -/
theorem watt_ring_after_touches (t : Int) (ts : List Int) :
    (insert_then_touches t ts).last_pos.val = ts.length % 8 ∧
    (∀ j, j ≤ min ts.length 7 →
      (insert_then_touches t ts).accesses ⟨(ts.length - j) % 8, by omega⟩ =
        (t :: ts).getD (ts.length - j) 0) ∧
    (∀ s : Fin 8, ts.length < s.val →
      (insert_then_touches t ts).accesses s = t - 3000000) := by
  induction ts using List.reverseRecOn with
  | nil =>
    refine ⟨rfl, fun j hj => ?_, fun s hs => ?_⟩
    · have hj0 : j = 0 := by
        simp only [List.length_nil] at hj
        omega
      subst hj0
      simp [insert_then_touches, WATT_insert_metadata]
    · simp only [insert_then_touches, List.foldl_nil, WATT_insert_metadata]
      rw [if_neg (by omega)]
  | append_singleton ts u ih =>
    obtain ⟨ih1, ih2, ih3⟩ := ih
    rw [insert_then_touches_append]
    have hlen : (ts ++ [u]).length = ts.length + 1 := by simp
    have hnextval :
        ((insert_then_touches t ts).last_pos.val + 1) % 8 =
          (ts.length + 1) % 8 := by omega
    refine ⟨?_, fun j hj => ?_, fun s hs => ?_⟩
    · simp only [WATT_touch]
      omega
    · rw [hlen] at hj ⊢
      by_cases hj0 : j = 0
      · subst hj0
        have hfin : (⟨(ts.length + 1 - 0) % 8, by omega⟩ : Fin 8) =
            ⟨((insert_then_touches t ts).last_pos.val + 1) % 8, by omega⟩ :=
          Fin.mk_eq_mk.mpr (by omega)
        rw [hfin]
        simp only [WATT_touch, Function.update_same]
        rw [show t :: (ts ++ [u]) = (t :: ts) ++ [u] from rfl,
          List.getD_append_right (t :: ts) [u] 0 (ts.length + 1 - 0) (by simp)]
        simp
      · have hne : (⟨(ts.length + 1 - j) % 8, by omega⟩ : Fin 8) ≠
            (⟨((insert_then_touches t ts).last_pos.val + 1) % 8, by omega⟩ :
              Fin 8) := by
          intro hcontra
          have hvals := Fin.mk_eq_mk.mp hcontra
          omega
        simp only [WATT_touch]
        rw [Function.update_noteq hne]
        have hidx : ts.length + 1 - j = ts.length - (j - 1) := by omega
        have hfin2 : (⟨(ts.length + 1 - j) % 8, by omega⟩ : Fin 8) =
            ⟨(ts.length - (j - 1)) % 8, by omega⟩ := Fin.mk_eq_mk.mpr (by omega)
        rw [hfin2, ih2 (j - 1) (by omega),
          show t :: (ts ++ [u]) = (t :: ts) ++ [u] from rfl,
          List.getD_append (t :: ts) [u] 0 (ts.length + 1 - j) (by simp; omega),
          hidx]
    · rw [hlen] at hs
      have hs8 : s.val < 8 := s.isLt
      have hne : s ≠
          (⟨((insert_then_touches t ts).last_pos.val + 1) % 8, by omega⟩ :
            Fin 8) := by
        intro hcontra
        have hval : s.val =
            ((insert_then_touches t ts).last_pos.val + 1) % 8 := by
          rw [hcontra]
        omega
      simp only [WATT_touch]
      rw [Function.update_noteq hne]
      exact ih3 s (by omega)

/-- C2 witness: the ring property instantiated after an insert at 100 and
three touches at 101, 102, 103. -/
theorem watt_ring_after_touches_witness :
    2 ≤ min ([101, 102, 103] : List Int).length 7 ∧
    (insert_then_touches 100 [101, 102, 103]).accesses
        ⟨(([101, 102, 103] : List Int).length - 2) % 8, by omega⟩ =
      ((100 : Int) :: [101, 102, 103]).getD
        (([101, 102, 103] : List Int).length - 2) 0 :=
  ⟨by decide, (watt_ring_after_touches 100 [101, 102, 103]).2.1 2 (by decide)⟩

/-- C9: `WATT_find` on an absent identity returns nothing and leaves the
store untouched, and with `update_cache = false` it never modifies any
object's ring or cursor, even on a hit. -/
theorem watt_find_frame (curr_time : Int) (objs : Nat → Option WATTMeta)
    (obj_id : Nat) (update_cache : Bool) :
    (objs obj_id = none →
      WATT_find curr_time objs obj_id update_cache = (none, objs)) ∧
    (update_cache = false →
      (WATT_find curr_time objs obj_id update_cache).2 = objs) := by
  constructor
  · intro h
    simp [WATT_find, h]
  · intro h
    subst h
    cases hobj : objs obj_id <;> simp [WATT_find, hobj]

/-- C9 witness: a miss at a concrete input returns nothing and the store
is unchanged. -/
theorem watt_find_frame_witness :
    WATT_find 5 (fun _ => none) 3 true = (none, fun _ => none) :=
  (watt_find_frame 5 (fun _ => none) 3 true).1 rfl

/-- C's `isspace` for the default locale, used by `strtol`. -/
def c_isspace (c : Char) : Bool :=
  c = ' ' || c = '\t' || c = '\n' || c = '\x0b' || c = '\x0c' || c = '\r'

/-- Decimal digit value of a character. -/
def decDigit? (c : Char) : Option Nat :=
  if '0' ≤ c ∧ c ≤ '9' then some (c.toNat - '0'.toNat) else none

/-- Hexadecimal digit value of a character. -/
def hexDigit? (c : Char) : Option Nat :=
  if '0' ≤ c ∧ c ≤ '9' then some (c.toNat - '0'.toNat)
  else if 'a' ≤ c ∧ c ≤ 'f' then some (c.toNat - 'a'.toNat + 10)
  else if 'A' ≤ c ∧ c ≤ 'F' then some (c.toNat - 'A'.toNat + 10)
  else none

/-- Octal digit value of a character. -/
def octDigit? (c : Char) : Option Nat :=
  if '0' ≤ c ∧ c ≤ '7' then some (c.toNat - '0'.toNat) else none

/-- Consume the longest digit prefix, accumulating the value; return the
value and the unconsumed remainder (the `end` pointer of `strtol`). -/
def parseDigits (digit : Char → Option Nat) (base : Nat) :
    List Char → Nat → Nat × List Char
  | [], acc => (acc, [])
  | c :: rest, acc =>
    match digit c with
    | some d => parseDigits digit base rest (acc * base + d)
    | none => (acc, c :: rest)

/-- `strtol(value, &end, 0)` as the parse of `WATT_parse_params` uses it
(WATT.c line 289): skip whitespace, optional sign, base detection from the
`0x`/`0` prefix, longest digit run; returns the value and the remainder at
`end`.  When no conversion is possible, `end` is the original string.
Overflow clamping of C `long` and the truncating `(int)` cast are not
modelled (no claim depends on them). -/
def WATT_strtol (s : List Char) : Int × List Char :=
  let s1 := s.dropWhile c_isspace
  let sign : Int :=
    match s1 with
    | '-' :: _ => -1
    | _ => 1
  let s2 :=
    match s1 with
    | '-' :: r => r
    | '+' :: r => r
    | _ => s1
  match s2 with
  | '0' :: c :: rest =>
    if c = 'x' ∨ c = 'X' then
      match rest with
      | d :: _ =>
        if (hexDigit? d).isSome then
          let p := parseDigits hexDigit? 16 rest 0
          (sign * p.1, p.2)
        else (0, c :: rest)
      | [] => (0, c :: rest)
    else
      let p := parseDigits octDigit? 8 ('0' :: c :: rest) 0
      (sign * p.1, p.2)
  | ['0'] => (0, [])
  | d :: rest2 =>
    if (decDigit? d).isSome then
      let p := parseDigits decDigit? 10 (d :: rest2) 0
      (sign * p.1, p.2)
    else (0, s)
  | [] => (0, s)

/-- The outcome of `WATT_parse_params`.  Modelled from the spec: the
`ERROR` logging macro (outside the staged sources) is fatal and terminates
at setup time, modelled as the `error` outcome; the `print` branch exits
successfully (`printExit`); `ub` marks the C undefined behaviour of a key
without `=` (NULL `value` handed to `strtol`). -/
inductive ParseOutcome where
  | ok (n_sample : Int)
  | error
  | printExit
  | ub
deriving DecidableEq

/-- `strsep(&p, delims)`: the token before the first delimiter, and the
remainder after it (`none` models the NULL `p` when no delimiter). -/
def strsep (delims : List Char) : List Char → List Char × Option (List Char)
  | [] => ([], none)
  | c :: rest =>
    if delims.contains c then ([], some rest)
    else
      let p := strsep delims rest
      (c :: p.1, p.2)

/-- The configuration key of the sample count. -/
def nsample_key : List Char := ['n', '-', 's', 'a', 'm', 'p', 'l', 'e']

/-- The debugging configuration key. -/
def print_key : List Char := ['p', 'r', 'i', 'n', 't']

/-- `strcasecmp(a, b) == 0`. -/
def str_ieq (a b : List Char) : Prop :=
  a.map Char.toLower = b.map Char.toLower

instance (a b : List Char) : Decidable (str_ieq a b) :=
  inferInstanceAs (Decidable (a.map Char.toLower = b.map Char.toLower))

/-- What is left of the configuration string after one key=value pair is
consumed: the two `strsep` calls and the space skip of the loop body
(WATT.c lines 280-286). -/
def after_pair (s : List Char) : Option (List Char) :=
  match (strsep ['='] s).2 with
  | none => none
  | some r =>
    match (strsep [','] r).2 with
    | none => none
    | some r2 => some (r2.dropWhile (fun c => c = ' '))

/-- Loop measure: remaining characters (`none` models NULL). -/
def opt_len : Option (List Char) → Nat
  | none => 0
  | some l => l.length + 1

/-- The remainder `strsep` returns is strictly shorter than its input. -/
theorem strsep_rest_length (delims : List Char) :
    ∀ (s r : List Char), (strsep delims s).2 = some r → r.length < s.length := by
  intro s
  induction s with
  | nil => intro r h; exact absurd h (by simp [strsep])
  | cons c rest ih =>
    intro r h
    rw [strsep] at h
    by_cases hc : delims.contains c
    · rw [if_pos hc] at h
      obtain rfl : rest = r := by simpa using h
      simp
    · rw [if_neg hc] at h
      simp only at h
      exact Nat.lt_trans (ih r h) (by simp)

/-- One loop iteration strictly shrinks the remaining configuration
string. -/
theorem after_pair_opt_len (s : List Char) : opt_len (after_pair s) ≤ s.length := by
  unfold after_pair
  cases h1 : (strsep ['='] s).2 with
  | none => simp [opt_len]
  | some r =>
    have hr := strsep_rest_length ['='] s r h1
    cases h2 : (strsep [','] r).2 with
    | none => simp [opt_len, h2]
    | some r2 =>
      have hr2 := strsep_rest_length [','] r r2 h2
      have hd : (r2.dropWhile (fun c => c = ' ')).length ≤ r2.length :=
        (List.dropWhile_sublist _).length_le
      simp only [h2, opt_len]
      omega

/-- The parameter-parsing loop of `WATT_parse_params` (WATT.c lines
277-301): split the next `key=value` pair with `strsep`, skip spaces,
dispatch on the key.  `n_sample` is the running parameter value (64 on
entry, WATT.c line 59). -/
def WATT_parse_loop (n_sample : Int) (o : Option (List Char)) : ParseOutcome :=
  match o with
  | none => ParseOutcome.ok n_sample
  | some [] => ParseOutcome.ok n_sample
  | some (c :: cs) =>
    let key := (strsep ['='] (c :: cs)).1
    let value := ((strsep ['='] (c :: cs)).2).map (fun r => (strsep [','] r).1)
    if str_ieq key nsample_key then
      match value with
      | none => ParseOutcome.ub
      | some v =>
        if 2 < (WATT_strtol v).2.length then ParseOutcome.error
        else WATT_parse_loop (WATT_strtol v).1 (after_pair (c :: cs))
    else if str_ieq key print_key then ParseOutcome.printExit
    else ParseOutcome.error
termination_by opt_len o
decreasing_by
  have hap := after_pair_opt_len (c :: cs)
  simp only [opt_len] at *
  omega

/-- `WATT_parse_params` (WATT.c lines 270-304) on a configuration string,
starting from the default `n_sample = 64` set by `WATT_init`. -/
def WATT_parse_params (cache_specific_params : List Char) : ParseOutcome :=
  WATT_parse_loop 64 (some cache_specific_params)

/-- `WATT_parse_loop` stops on the NULL remainder. -/
theorem watt_parse_loop_none (n_sample : Int) :
    WATT_parse_loop n_sample none = ParseOutcome.ok n_sample := by
  rw [WATT_parse_loop]

/-- `strsep` on a string without delimiters returns the whole string and a
NULL remainder. -/
theorem strsep_no_delim (delims : List Char) :
    ∀ (s : List Char), (∀ c ∈ s, delims.contains c = false) →
      strsep delims s = (s, none) := by
  intro s
  induction s with
  | nil => intro _; rfl
  | cons c rest ih =>
    intro h
    rw [strsep,
      if_neg (by
        rw [h c (List.mem_cons_self c rest)]
        exact Bool.false_ne_true),
      ih (fun c2 hc2 => h c2 (List.mem_cons_of_mem c hc2))]

/-- `strsep` splits at the first delimiter. -/
theorem strsep_append (delims : List Char) (d : Char)
    (hd : delims.contains d = true) :
    ∀ (l1 l2 : List Char), (∀ c ∈ l1, delims.contains c = false) →
      strsep delims (l1 ++ d :: l2) = (l1, some l2) := by
  intro l1
  induction l1 with
  | nil =>
    intro l2 _
    rw [List.nil_append, strsep, if_pos hd]
  | cons c r ih =>
    intro l2 h
    rw [List.cons_append, strsep,
      if_neg (by
        rw [h c (List.mem_cons_self c r)]
        exact Bool.false_ne_true),
      ih l2 (fun c2 hc2 => h c2 (List.mem_cons_of_mem c hc2))]

/-- One iteration of the parsing loop on a single `n-sample=value` pair:
the value's `strtol` remainder decides between the fatal error and a
normal return with the parsed count. -/
theorem watt_parse_loop_pair (n0 : Int) (c : Char) (cs v : List Char)
    (hkey : strsep ['='] (c :: cs) = (nsample_key, some v))
    (hval : strsep [','] v = (v, none)) :
    WATT_parse_loop n0 (some (c :: cs)) =
      if 2 < (WATT_strtol v).2.length then ParseOutcome.error
      else ParseOutcome.ok (WATT_strtol v).1 := by
  have hap : after_pair (c :: cs) = none := by
    simp only [after_pair, hkey, hval]
  rw [WATT_parse_loop]
  simp only [hkey, hval, Option.map_some']
  rw [if_pos (show str_ieq nsample_key nsample_key from rfl)]
  by_cases hlen : 2 < (WATT_strtol v).2.length
  · rw [if_pos hlen, if_pos hlen]
  · rw [if_neg hlen, if_neg hlen, hap, watt_parse_loop_none]

/-- C8 (amended): for an `n-sample` value without `=` or `,`, parsing is
fatal exactly when more than 2 characters of trailing garbage remain after
the parsed number (`strlen(end) > 2`, WATT.c line 290); up to 2 trailing
characters are silently accepted together with the parsed value. -/
theorem watt_parse_nsample_trailing (v : List Char)
    (h : ∀ c ∈ v, c ≠ '=' ∧ c ≠ ',') :
    WATT_parse_params (nsample_key ++ '=' :: v) =
      if 2 < (WATT_strtol v).2.length then ParseOutcome.error
      else ParseOutcome.ok (WATT_strtol v).1 := by
  have hkey :
      strsep ['='] ('n' :: (['-', 's', 'a', 'm', 'p', 'l', 'e'] ++ '=' :: v)) =
        (nsample_key, some v) :=
    strsep_append ['='] '=' (by decide) nsample_key v (by decide)
  have hval : strsep [','] v = (v, none) :=
    strsep_no_delim [','] v (fun c hc => by simpa using (h c hc).2)
  exact watt_parse_loop_pair 64 'n'
    (['-', 's', 'a', 'm', 'p', 'l', 'e'] ++ '=' :: v) v hkey hval

/-- C8 counterexample: the value `64ab` has trailing garbage after the
number, yet parsing succeeds with 64 and reports no error (the source
only rejects more than 2 trailing characters). -/
theorem watt_parse_trailing_cex :
    WATT_parse_params (nsample_key ++ '=' :: ['6', '4', 'a', 'b']) =
      ParseOutcome.ok 64 ∧
    ParseOutcome.ok 64 ≠ ParseOutcome.error := by
  constructor
  · have hkey :
        strsep ['=']
            ('n' :: (['-', 's', 'a', 'm', 'p', 'l', 'e'] ++
              '=' :: ['6', '4', 'a', 'b'])) =
          (nsample_key, some ['6', '4', 'a', 'b']) :=
      strsep_append ['='] '=' (by decide) nsample_key ['6', '4', 'a', 'b']
        (by decide)
    have hval : strsep [','] ['6', '4', 'a', 'b'] =
        (['6', '4', 'a', 'b'], none) :=
      strsep_no_delim [','] _ (by decide)
    have hp := watt_parse_loop_pair 64 'n'
      (['-', 's', 'a', 'm', 'p', 'l', 'e'] ++ '=' :: ['6', '4', 'a', 'b'])
      ['6', '4', 'a', 'b'] hkey hval
    have hstr : WATT_strtol ['6', '4', 'a', 'b'] = (64, ['a', 'b']) := by
      decide
    rw [show WATT_parse_params (nsample_key ++ '=' :: ['6', '4', 'a', 'b']) =
        WATT_parse_loop 64
          (some ('n' :: (['-', 's', 'a', 'm', 'p', 'l', 'e'] ++
            '=' :: ['6', '4', 'a', 'b']))) from rfl,
      hp, hstr]
    decide
  · decide

/-- C8 witness: a clean numeric value parses to its number with no error. -/
theorem watt_parse_nsample_trailing_witness :
    (∀ c ∈ (['9', '9'] : List Char), c ≠ '=' ∧ c ≠ ',') ∧
    WATT_parse_params (nsample_key ++ '=' :: ['9', '9']) =
      (if 2 < (WATT_strtol ['9', '9']).2.length then ParseOutcome.error
       else ParseOutcome.ok (WATT_strtol ['9', '9']).1) :=
  ⟨by decide, watt_parse_nsample_trailing ['9', '9'] (by decide)⟩
